import Mathlib

/-!
Verification of the pyzippy codec (src/pyzippy.py).

The program is embedded shallowly: Python strings become `List Char`,
Python exceptions become an explicit error type `PyErr` threaded through
`Except`, and the external zlib+base64 pair (an external library, not part
of the repository) is a parameter `comp`/`decomp` of the encoder/decoder.
-/

namespace Pyzippy

/-- Python strings are modelled as lists of characters. -/
abbrev Str := List Char

/-- Errors the Python code can raise: `indexError` for out-of-range string
indexing, `valueError c` for the decoder's "Invalid Symbol" error carrying
the offending character, `substrNotFound` for `str.index` failing, and
`decompressError` for a failing `zlib.decompress`. -/
inductive PyErr where
  | indexError
  | valueError (c : Char)
  | substrNotFound
  | decompressError
deriving DecidableEq

/-- The symbol table of src/pyzippy.py lines 20-34, in source (insertion)
order.  Punctuation characters are written with `Char.ofNat` codes. -/
def table : List (Str × Char) := [
  ("False".data, 'A'), ("await".data, 'a'), ("else".data, 'B'), ("import".data, 'b'),
  ("pass".data, 'C'), ("None".data, 'c'), ("break".data, 'D'), ("except".data, 'd'),
  ("in".data, 'E'), ("raise".data, 'e'), ("True".data, 'F'),
  ("class".data, 'f'), ("finally".data, 'G'), ("is".data, 'g'), ("return".data, 'H'),
  ("and".data, 'h'), ("continue".data, 'I'), ("for".data, 'i'), ("lambda".data, 'J'),
  ("try".data, 'j'), ("as".data, 'K'), ("def".data, 'k'),
  ("from".data, 'L'), ("nonlocal".data, 'l'), ("while".data, 'M'), ("assert".data, 'm'),
  ("del".data, 'N'), ("global".data, 'n'), ("not".data, 'O'), ("with".data, 'o'),
  ("async".data, 'P'), ("elif".data, 'p'), ("if".data, 'Q'), ("or".data, 'q'),
  ("yield".data, 'R'),
  ([Char.ofNat 33], 'r'), ([Char.ofNat 64], 'S'), ([Char.ofNat 35], 's'),
  ([Char.ofNat 37], 't'), ([Char.ofNat 94], 'U'), ([Char.ofNat 38], 'u'),
  ([Char.ofNat 42], 'V'), ([Char.ofNat 40], 'v'), ([Char.ofNat 41], 'W'),
  ([Char.ofNat 91], 'w'), ([Char.ofNat 93], 'X'), ([Char.ofNat 123], 'x'),
  ([Char.ofNat 125], 'Y'), ([Char.ofNat 59], 'y'), ([Char.ofNat 58], 'Z'),
  ([Char.ofNat 39], 'z'), ([Char.ofNat 34], '1'), ([Char.ofNat 44], '2'),
  ([Char.ofNat 47], '3'), ([Char.ofNat 96], '4'), ([Char.ofNat 92], '6'),
  ([Char.ofNat 124], '7'), ([Char.ofNat 61], '8'),
  ([Char.ofNat 10], '0'),
  ([Char.ofNat 9], 'T'),
  ([Char.ofNat 32], '9')]

/-- Python `rev_table = {v: k for k, v in table.items()}` (line 35). -/
def rev_table : List (Char × Str) := table.map (fun p => (p.2, p.1))

/-- Python `x in table` followed by `table[x]`: first-entry dictionary lookup. -/
def lookup (x : Str) : Option Char :=
  (table.find? (fun p => p.1 == x)).map (fun p => p.2)

/-- Python `x in rev_table` followed by `rev_table[x]`. -/
def revLookup (c : Char) : Option Str :=
  (rev_table.find? (fun q => q.1 == c)).map (fun q => q.2)

/-- The digit alphabet of line 55. -/
def base_62 : Str := "0123456789abcdefghijklmnopqrstuvwxyzABCDEFGHIJKLMNOPQRSTUVWXYZ".data

/-- Decides whether `l` occurs at the start of `s`. -/
def isPre : Str → Str → Bool
  | [], _ => true
  | _ :: _, [] => false
  | a :: as, b :: bs => a == b && isPre as bs

/-- The literals of the table, in source order: the alternatives of the
`_kywds` regex of line 56. -/
def lits : List Str := table.map (fun p => p.1)

/-- The regex alternation `(lit1|lit2|...)` tried at one position: the first
literal, in table order, occurring at the start of `s`.  All alternatives of
`_kywds` are nonempty; the emptiness test records that fact for use below. -/
def findLit (s : Str) : Option Str :=
  lits.find? (fun l => !l.isEmpty && isPre l s)

theorem isPre_length_le : ∀ l s : Str, isPre l s = true → l.length ≤ s.length := by
  intro l
  induction l with
  | nil => intro s _; simp
  | cons a as ih =>
    intro s h
    cases s with
    | nil => simp [isPre] at h
    | cons b bs =>
      simp only [isPre, Bool.and_eq_true] at h
      have := ih bs h.2
      simp [List.length_cons]
      omega

theorem isPre_append_drop : ∀ l s : Str, isPre l s = true → l ++ s.drop l.length = s := by
  intro l
  induction l with
  | nil => intro s _; simp
  | cons a as ih =>
    intro s h
    cases s with
    | nil => simp [isPre] at h
    | cons b bs =>
      simp only [isPre, Bool.and_eq_true, beq_iff_eq] at h
      simp [h.1, ih bs h.2]

theorem isPre_append_right : ∀ l x y : Str, isPre l x = true → isPre l (x ++ y) = true := by
  intro l
  induction l with
  | nil => intro x y _; simp [isPre]
  | cons a as ih =>
    intro x y h
    cases x with
    | nil => simp [isPre] at h
    | cons b bs =>
      simp only [isPre, Bool.and_eq_true] at h ⊢
      exact ⟨h.1, ih bs y h.2⟩

/-- Python `re.split(_kywds, txt)` (line 69): leftmost scanning with
first-alternative-wins matching; the result alternates unmatched gaps
(possibly empty) with matched literals.  `pend` holds, reversed, the gap
characters accumulated so far.  The scan consumes at least one character of
`s` per step, so `fuel` bounds the recursion; `s.length + 1` always
suffices (see `splitGo_fuel`), making the fuel purely a termination
device, not part of the modelled behaviour. -/
def splitGo : Nat → Str → Str → List Str
  | 0, s, pend => [pend.reverse ++ s]
  | fuel + 1, s, pend =>
    match findLit s with
    | some l => pend.reverse :: l :: splitGo fuel (s.drop l.length) []
    | none =>
      match s with
      | [] => [pend.reverse]
      | c :: cs => splitGo fuel cs (c :: pend)

/-- Python `re.split(_kywds, txt)`. -/
def pysplit (txt : Str) : List Str := splitGo (txt.length + 1) txt []

/-- Python indexing `s[i]` with negative-index wraparound and IndexError. -/
def py_get (s : Str) (i : Int) : Except PyErr Char :=
  let j : Int := if i < 0 then i + s.length else i
  if j < 0 then .error .indexError
  else
    match s.get? j.toNat with
    | some c => .ok c
    | none => .error .indexError

/-- Python `_form_ident` (lines 59-64): `for s in range(0, len(x), 63)`,
`segment = x[s * 63:(s + 1) * 63]`, append `"5" + base_62[len(segment) - 1]
+ segment`, join.  Note the source's two quirks are kept: the loop variable
`s` is already a multiple of 63 and is multiplied by 63 again in the slice,
and the chunk size 63 exceeds the 62 digits of `base_62`. -/
def _form_ident (x : Str) : Except PyErr Str := do
  let steps := List.range' 0 ((x.length + 62) / 63) 63
  let segs ← steps.mapM (fun s => do
    let segment := (x.drop (s * 63)).take 63
    let d ← py_get base_62 ((segment.length : Int) - 1)
    pure ('5' :: d :: segment))
  pure segs.flatten

/-- One iteration of the `_encode` loop body (lines 70-75): skip empty
pieces, replace table literals by their code, frame everything else. -/
def encPiece (x : Str) : Except PyErr Str :=
  if x.isEmpty then .ok []
  else
    match lookup x with
    | some c => .ok [c]
    | none => _form_ident x

/-- The payload accumulation of `_encode` (lines 68-75). -/
def payload_of (txt : Str) : Except PyErr Str := do
  let parts ← (pysplit txt).mapM encPiece
  pure parts.flatten

/-- Python `_encode` (lines 67-81).  `comp` stands for the external chain
`base64.encodebytes(zlib.compress(payload.encode())).decode("ascii")`. -/
def _encode (comp : Str → Str) (txt : Str) (threshold_length : Nat) : Except PyErr Str := do
  let payload_string ← payload_of txt
  if payload_string.length > threshold_length then
    let encoded := '1' :: comp payload_string
    if encoded.length < payload_string.length + 1 then pure encoded
    else pure ('0' :: payload_string)
  else pure ('0' :: payload_string)

/-- The decoder's token walk, lines 89-103 of `_decode`: expand symbol
codes through `rev_table`, raise on any other character that is not the
marker `'5'`, and for a frame read the length digit (IndexError when the
payload ends at the marker, ValueError when the digit is not in `base_62`)
and copy `text[pointer:pointer + length]` — a Python slice, which silently
truncates when fewer than `length` characters remain.  Every loop step
advances the pointer by at least one, so `fuel` bounds the recursion;
`t.length + 1` always suffices (see `walkGo_fuel`). -/
def walkGo : Nat → Str → Except PyErr Str
  | 0, _ => .error .indexError
  | _ + 1, [] => .ok []
  | fuel + 1, x :: rest =>
    match revLookup x with
    | some lit => (fun tail => lit ++ tail) <$> walkGo fuel rest
    | none =>
      if x ≠ '5' then .error (.valueError x)
      else
        match rest with
        | [] => .error .indexError
        | d :: rest2 =>
          match List.findIdx? (fun a => a == d) base_62 with
          | none => .error .substrNotFound
          | some i =>
            (fun tail => rest2.take (i + 1) ++ tail) <$> walkGo fuel (rest2.drop (i + 1))

/-- The decoder's while loop of lines 91-102 over a whole payload. -/
def walk (t : Str) : Except PyErr Str := walkGo (t.length + 1) t

/-- Python `_decode` (lines 84-103).  `decomp` stands for the external chain
`zlib.decompress(base64.decodebytes(text.encode("ascii"))).decode()`, which
can fail.  The flag is removed first; decompression happens exactly when the
flag character is `'1'` — there is no other flag validation in the source. -/
def _decode (decomp : Str → Except PyErr Str) (text : Str) : Except PyErr Str :=
  match text with
  | [] => .error .indexError
  | flag :: body => do
    let t ← if flag = '1' then decomp body else pure body
    walk t

theorem findLit_nil : findLit [] = none := rfl

theorem findLit_some_facts {s l : Str} (h : findLit s = some l) :
    l ∈ lits ∧ 1 ≤ l.length ∧ isPre l s = true := by
  have hmem := List.mem_of_find?_eq_some h
  have hp := List.find?_some h
  simp only [Bool.and_eq_true, Bool.not_eq_true'] at hp
  refine ⟨hmem, ?_, hp.2⟩
  cases l with
  | nil => simp [List.isEmpty] at hp
  | cons a as => simp

theorem findLit_of_append {x y : Str} (h : findLit (x ++ y) = none) : findLit x = none := by
  rw [findLit, List.find?_eq_none] at h ⊢
  intro l hl hcontra
  apply h l hl
  simp only [Bool.and_eq_true, Bool.not_eq_true'] at hcontra ⊢
  exact ⟨hcontra.1, isPre_append_right l x y hcontra.2⟩

theorem splitGo_fuel : ∀ f1 : Nat, ∀ s pend : Str, ∀ f2 : Nat,
    s.length < f1 → s.length < f2 → splitGo f1 s pend = splitGo f2 s pend := by
  intro f1
  induction f1 with
  | zero => intro s pend f2 h1 _; omega
  | succ f1 ih =>
    intro s pend f2 h1 h2
    cases f2 with
    | zero => omega
    | succ f2 =>
      simp only [splitGo]
      cases hfl : findLit s with
      | some l =>
        obtain ⟨_, hlen, hpre⟩ := findLit_some_facts hfl
        have hls := isPre_length_le l s hpre
        have hlt : (s.drop l.length).length < f1 ∧ (s.drop l.length).length < f2 := by
          simp only [List.length_drop]
          omega
        dsimp only
        rw [ih (s.drop l.length) [] f2 hlt.1 hlt.2]
      | none =>
        cases s with
        | nil => rfl
        | cons c cs =>
          simp only [List.length_cons] at h1 h2
          dsimp only
          rw [ih cs (c :: pend) f2 (by omega) (by omega)]

theorem splitGo_flatten : ∀ fuel : Nat, ∀ s pend : Str, s.length < fuel →
    (splitGo fuel s pend).flatten = pend.reverse ++ s := by
  intro fuel
  induction fuel with
  | zero => intro s pend h; omega
  | succ fuel ih =>
    intro s pend h
    simp only [splitGo]
    cases hfl : findLit s with
    | some l =>
      obtain ⟨_, hlen, hpre⟩ := findLit_some_facts hfl
      have hls := isPre_length_le l s hpre
      have hrec := ih (s.drop l.length) [] (by simp only [List.length_drop]; omega)
      simp only [List.flatten_cons, hrec, List.reverse_nil, List.nil_append]
      rw [isPre_append_drop l s hpre]
    | none =>
      cases s with
      | nil => simp
      | cons c cs =>
        simp only [List.length_cons] at h
        have hrec := ih cs (c :: pend) (by omega)
        simp only [hrec, List.reverse_cons, List.append_assoc, List.singleton_append]

theorem pysplit_flatten (txt : Str) : (pysplit txt).flatten = txt := by
  simpa using splitGo_flatten (txt.length + 1) txt [] (by omega)

/-- A string all of whose positions carry no literal match (in context) stays
match-free as a standalone piece: every piece of the scan is either a matched
literal or a gap in which `findLit` fails at every position. -/
theorem splitGo_pieces : ∀ fuel : Nat, ∀ s pend : Str, s.length < fuel →
    (∀ i, i < pend.length → findLit (pend.reverse.drop i ++ s) = none) →
    ∀ p ∈ splitGo fuel s pend, p ∈ lits ∨ ∀ j, findLit (p.drop j) = none := by
  intro fuel
  induction fuel with
  | zero => intro s pend h; omega
  | succ fuel ih =>
    intro s pend h hInv p hp
    have hgap : ∀ j, findLit (pend.reverse.drop j) = none := by
      intro j
      by_cases hj : j < pend.length
      · exact findLit_of_append (hInv j hj)
      · rw [List.drop_eq_nil_of_le (by simp; omega)]
        exact findLit_nil
    simp only [splitGo] at hp
    cases hfl : findLit s with
    | some l =>
      rw [hfl] at hp
      obtain ⟨hmem, hlen, hpre⟩ := findLit_some_facts hfl
      have hls := isPre_length_le l s hpre
      simp only [List.mem_cons] at hp
      rcases hp with rfl | rfl | hp
      · exact Or.inr hgap
      · exact Or.inl hmem
      · exact ih (s.drop l.length) [] (by simp only [List.length_drop]; omega)
          (by intro i hi; simp at hi) p hp
    | none =>
      rw [hfl] at hp
      cases s with
      | nil =>
        simp only [List.mem_singleton] at hp
        subst hp
        exact Or.inr hgap
      | cons c cs =>
        simp only [List.length_cons] at h
        refine ih cs (c :: pend) (by omega) ?_ p hp
        intro i hi
        simp only [List.length_cons] at hi
        rw [List.reverse_cons]
        by_cases hic : i < pend.length
        · rw [List.drop_append_of_le_length (by simp; omega), List.append_assoc,
            List.singleton_append]
          exact hInv i hic
        · have hie : i = pend.length := by omega
          subst hie
          rw [show pend.length = pend.reverse.length by simp, List.drop_left,
            List.singleton_append]
          exact hfl

/-- Every piece of `re.split(_kywds, txt)` is a table literal or contains no
literal occurrence at any of its positions. -/
theorem pysplit_pieces (txt : Str) :
    ∀ p ∈ pysplit txt, p ∈ lits ∨ ∀ j, findLit (p.drop j) = none := by
  exact splitGo_pieces (txt.length + 1) txt [] (by omega) (by intro i hi; simp at hi)

theorem walkGo_fuel : ∀ f1 : Nat, ∀ t : Str, ∀ f2 : Nat,
    t.length < f1 → t.length < f2 → walkGo f1 t = walkGo f2 t := by
  intro f1
  induction f1 with
  | zero => intro t f2 h1 _; omega
  | succ f1 ih =>
    intro t f2 h1 h2
    cases f2 with
    | zero => omega
    | succ f2 =>
      cases t with
      | nil => rfl
      | cons x rest =>
        simp only [walkGo]
        cases revLookup x with
        | some lit =>
          dsimp only
          simp only [List.length_cons] at h1 h2
          rw [ih rest f2 (by omega) (by omega)]
        | none =>
          dsimp only
          by_cases hx : x ≠ '5'
          · rw [if_pos hx, if_pos hx]
          · rw [if_neg hx, if_neg hx]
            cases rest with
            | nil => rfl
            | cons d rest2 =>
              dsimp only
              cases List.findIdx? (fun a => a == d) base_62 with
              | none => rfl
              | some i =>
                dsimp only
                simp only [List.length_cons] at h1 h2
                have hlen : (rest2.drop (i + 1)).length < f1 ∧
                    (rest2.drop (i + 1)).length < f2 := by
                  simp only [List.length_drop]
                  omega
                rw [ih (rest2.drop (i + 1)) f2 hlen.1 hlen.2]

theorem walk_nil : walk [] = .ok [] := rfl

theorem walk_cons_code {c : Char} {lit : Str} (h : revLookup c = some lit) (rest : Str) :
    walk (c :: rest) = (fun tail => lit ++ tail) <$> walk rest := by
  simp only [walk, List.length_cons, walkGo, h]

theorem revLookup_five : revLookup '5' = none := rfl

theorem walk_bad {c : Char} (h1 : revLookup c = none) (h2 : c ≠ '5') (rest : Str) :
    walk (c :: rest) = .error (.valueError c) := by
  simp only [walk, List.length_cons, walkGo, h1]
  rw [if_pos h2]

theorem walk_cons_frame {d : Char} {x : Str} (rest : Str)
    (hd : List.findIdx? (fun a => a == d) base_62 = some (x.length - 1))
    (hx : 1 ≤ x.length) :
    walk ('5' :: d :: (x ++ rest)) = (fun tail => x ++ tail) <$> walk rest := by
  simp only [walk, List.length_cons, walkGo, revLookup_five]
  rw [if_neg (by simp), hd]
  dsimp only
  have hxe : x.length - 1 + 1 = x.length := by omega
  rw [hxe, List.take_left, List.drop_left]
  have hfuel : rest.length < (x ++ rest).length + 1 + 1 ∧ rest.length < rest.length + 1 := by
    simp only [List.length_append]
    omega
  rw [walkGo_fuel _ rest _ hfuel.1 hfuel.2]

/-- Each forward-table pair is inverted by the reverse dictionary. -/
theorem table_rev_ok : ∀ p ∈ table, revLookup p.2 = some p.1 := by decide

/-- Each reverse-table pair is inverted by the forward dictionary. -/
theorem rev_table_ok : ∀ q ∈ rev_table, lookup q.2 = some q.1 := by decide

theorem lookup_mem {x : Str} {c : Char} (h : lookup x = some c) : (x, c) ∈ table := by
  rw [lookup, Option.map_eq_some'] at h
  obtain ⟨p, hfind, hp2⟩ := h
  have hmem := List.mem_of_find?_eq_some hfind
  have hpred := List.find?_some hfind
  simp only [beq_iff_eq] at hpred
  have : p = (x, c) := by
    cases p
    simp_all
  rwa [this] at hmem

/-- Reading any `base_62` digit back with `str.index` recovers its position:
the digit alphabet has no repeated characters. -/
theorem base62_digit_idx : ∀ k : Fin 62,
    (base_62.get? k.val).map (fun d => List.findIdx? (fun a => a == d) base_62) =
      some (some k.val) := by decide

theorem py_get_natCast (s : Str) (k : Nat) :
    py_get s (k : Int) =
      match s.get? k with
      | some c => .ok c
      | none => .error .indexError := by
  have h0 : ¬ ((k : Int) < 0) := by omega
  simp only [py_get]
  rw [if_neg h0, if_neg h0, Int.toNat_natCast]

/-- On a nonempty segment of at most 62 characters the framer emits exactly
one frame: the marker, the digit encoding `length - 1`, and the raw copy. -/
theorem form_ident_small (x : Str) (h1 : 1 ≤ x.length) (h2 : x.length ≤ 62) :
    ∃ d, List.findIdx? (fun a => a == d) base_62 = some (x.length - 1) ∧
      _form_ident x = .ok ('5' :: d :: x) := by
  have hk : x.length - 1 < 62 := by omega
  have hget := base62_digit_idx ⟨x.length - 1, hk⟩
  cases hgd : base_62.get? (x.length - 1) with
  | none =>
    rw [hgd] at hget
    simp at hget
  | some d =>
    rw [hgd] at hget
    simp only [Option.map_some', Option.some_inj] at hget
    refine ⟨d, hget, ?_⟩
    have hdiv : (x.length + 62) / 63 = 1 := by omega
    have hcast : ((x.take 63).length : Int) - 1 = ((x.length - 1 : Nat) : Int) := by
      rw [List.length_take]
      omega
    have htake : x.take 63 = x := List.take_of_length_le (by omega)
    simp only [_form_ident, hdiv, List.range'_one, List.mapM_cons, List.mapM_nil,
      Nat.zero_mul, List.drop_zero, hcast, py_get_natCast, hgd]
    simp [htake]

/-- One encoded piece prepended to any remaining payload decodes to the piece
followed by the decoding of the remainder. -/
theorem encPiece_walk (x : Str) (hx : lookup x = none → x.length ≤ 62) :
    ∃ e, encPiece x = .ok e ∧
      ∀ rest, walk (e ++ rest) = (fun tail => x ++ tail) <$> walk rest := by
  cases x with
  | nil =>
    refine ⟨[], rfl, fun rest => ?_⟩
    cases hw : walk rest <;> simp [hw]
  | cons a as =>
    cases hl : lookup (a :: as) with
    | some c =>
      refine ⟨[c], ?_, fun rest => ?_⟩
      · simp [encPiece, hl]
      · have hrev : revLookup c = some (a :: as) := table_rev_ok (a :: as, c) (lookup_mem hl)
        simpa using walk_cons_code hrev rest
    | none =>
      have h2 : (a :: as).length ≤ 62 := hx hl
      obtain ⟨d, hd, hform⟩ := form_ident_small (a :: as) (by simp) h2
      refine ⟨'5' :: d :: (a :: as), ?_, fun rest => ?_⟩
      · simpa [encPiece, hl] using hform
      · have := walk_cons_frame rest hd (x := a :: as) (by simp)
        simpa using this

/-- Decoding distributes over a list of well-formed encoded pieces. -/
theorem encPieces_walk : ∀ pieces : List Str,
    (∀ x ∈ pieces, lookup x = none → x.length ≤ 62) →
    ∃ parts, pieces.mapM encPiece = .ok parts ∧
      ∀ rest, walk (parts.flatten ++ rest) =
        (fun tail => pieces.flatten ++ tail) <$> walk rest := by
  intro pieces
  induction pieces with
  | nil =>
    intro _
    refine ⟨[], rfl, fun rest => ?_⟩
    cases hw : walk rest <;> simp [hw]
  | cons x xs ih =>
    intro h
    obtain ⟨e, he, hwalk⟩ := encPiece_walk x (h x (by simp))
    obtain ⟨parts, hparts, hwrest⟩ := ih (fun y hy => h y (by simp [hy]))
    refine ⟨e :: parts, ?_, fun rest => ?_⟩
    · simp only [List.mapM_cons, he, hparts]
      rfl
    · rw [List.flatten_cons, List.append_assoc, hwalk, hwrest, List.flatten_cons]
      cases walk rest <;> simp

/-- The payload of any input whose unknown pieces fit one frame decodes back
to the input. -/
theorem payload_walk (X : Str) (h : ∀ x ∈ pysplit X, lookup x = none → x.length ≤ 62) :
    ∃ pay, payload_of X = .ok pay ∧ walk pay = .ok X := by
  obtain ⟨parts, hparts, hwrest⟩ := encPieces_walk (pysplit X) h
  refine ⟨parts.flatten, ?_, ?_⟩
  · simp only [payload_of, hparts]
    rfl
  · have := hwrest []
    rw [List.append_nil, walk_nil] at this
    rw [this]
    simp [pysplit_flatten]

theorem splitGo_succ (fuel : Nat) (s pend : Str) :
    splitGo (fuel + 1) s pend =
      match findLit s with
      | some l => pend.reverse :: l :: splitGo fuel (s.drop l.length) []
      | none =>
        match s with
        | [] => [pend.reverse]
        | c :: cs => splitGo fuel cs (c :: pend) := rfl

theorem okBind {α β : Type} (a : α) (f : α → Except PyErr β) :
    (Except.ok a : Except PyErr α) >>= f = f a := rfl

theorem errBind {α β : Type} (e : PyErr) (f : α → Except PyErr β) :
    (Except.error e : Except PyErr α) >>= f = .error e := rfl

/-- C2: the claim (and the spec's framer contract) requires every unknown
segment to be covered by frames of at most 62 raw characters, a segment of
63 characters yielding two frames.  The code instead chunks by 63 and
evaluates `base_62[63 - 1]`, an out-of-range index for the 62-character
digit alphabet: on a 63-character segment `_form_ident` raises IndexError
and produces no frames at all. -/
theorem c2_framer_boundary_bug :
    _form_ident (List.replicate 63 '_') = .error .indexError := rfl

/-- C3: the claim says a declared raw-span length overrunning the remaining
payload is a fatal decode error.  The code copies the span with a Python
slice, which silently truncates: the artifact `"05Zab"` declares a span of
62 characters with only two remaining, and `_decode` returns `"ab"`
successfully instead of raising. -/
theorem c3_overrun_truncates :
    _decode (fun _ => .error .decompressError)
      ('0' :: '5' :: 'Z' :: 'a' :: 'b' :: []) = .ok ('a' :: 'b' :: []) := rfl

/-- C6 counterexample: the symbol-code alphabet is NOT disjoint from the
base-62 digit alphabet — the code `'A'` (standing for `False`) is itself a
base-62 digit, refuting the claimed second disjointness. -/
theorem c6_code_in_base62 :
    'A' ∈ table.map (fun p => p.2) ∧ 'A' ∈ base_62 := by decide

/-- C6 (amended): the symbol-code alphabet is disjoint from the frame-marker
character `'5'`; it is not disjoint from the base-62 digit alphabet (every
code is a base-62 character), which the decoder never needs because length
digits are only read immediately after a marker. -/
theorem c6_marker_disjoint :
    (table.map (fun p => p.2)).all (fun c => c != '5') = true := by decide

/-- C7: the symbol table is a bijection — literals are pairwise distinct,
codes are pairwise distinct, the reverse dictionary has exactly as many
entries as the forward one (its keys are distinct), and the forward and
reverse lookups invert each other on their domains. -/
theorem c7_table_bijection :
    (table.map (fun p => p.1)).Nodup ∧
    (table.map (fun p => p.2)).Nodup ∧
    rev_table.length = table.length ∧
    (rev_table.map (fun q => q.1)).Nodup ∧
    (∀ p ∈ table, revLookup p.2 = some p.1) ∧
    (∀ q ∈ rev_table, lookup q.2 = some q.1) :=
  ⟨by decide, by decide, by decide, by decide, table_rev_ok, rev_table_ok⟩

/-- C7 witness: the pair for `if` is inverted both ways. -/
theorem c7_table_bijection_witness :
    revLookup 'Q' = some "if".data ∧ lookup "if".data = some 'Q' :=
  ⟨c7_table_bijection.2.2.2.2.1 ("if".data, 'Q') (by decide),
   c7_table_bijection.2.2.2.2.2 ('Q', "if".data) (by decide)⟩

/-- C9: at any point of the decoding walk where a token is expected, a
character that is neither a symbol code nor the frame marker `'5'` is a
fatal error reporting that character, and `_decode` of an uncompressed
artifact whose payload starts with such a character fails the same way. -/
theorem c9_invalid_symbol (c : Char) (rest : Str)
    (h1 : revLookup c = none) (h2 : c ≠ '5') :
    walk (c :: rest) = .error (.valueError c) ∧
    ∀ decomp : Str → Except PyErr Str,
      _decode decomp ('0' :: c :: rest) = .error (.valueError c) := by
  refine ⟨walk_bad h1 h2 rest, fun decomp => ?_⟩
  simp only [_decode]
  rw [if_neg (by decide : ¬ ('0' = '1'))]
  exact walk_bad h1 h2 rest

/-- C9 witness at the character `'+'`. -/
theorem c9_invalid_symbol_witness :
    revLookup '+' = none ∧ walk ('+' :: []) = .error (.valueError '+') :=
  ⟨rfl, (c9_invalid_symbol '+' [] rfl (by decide)).1⟩

/-- C10: the pieces of the keyword split concatenate back to the input
exactly, and every piece that is not a table literal carries no literal
occurrence at any of its positions. -/
theorem c10_split_covers (X : Str) :
    (pysplit X).flatten = X ∧
    ∀ p ∈ pysplit X, p ∉ lits → ∀ j, findLit (p.drop j) = none := by
  refine ⟨pysplit_flatten X, fun p hp hnot => ?_⟩
  rcases pysplit_pieces X p hp with h | h
  · exact absurd h hnot
  · exact h

/-- C10 witness: the split of `"if xyz"` concatenates back, and its unknown
piece `"xyz"` has no literal at its head. -/
theorem c10_split_covers_witness :
    (pysplit "if xyz".data).flatten = "if xyz".data ∧
    findLit (("xyz".data).drop 0) = none :=
  ⟨(c10_split_covers "if xyz".data).1,
   (c10_split_covers "if xyz".data).2 "xyz".data (by decide) (by decide) 0⟩

/-- C8: when several table literals could match at one position the
tokenizer takes the one earliest in table order: any input beginning with
`elif` splits off the single literal `elif` (whose code is `'p'`), never an
unknown prefix followed by `if`. -/
theorem c8_first_match_wins (rest : Str) :
    pysplit ("elif".data ++ rest) = [] :: "elif".data :: pysplit rest ∧
    lookup "elif".data = some 'p' := by
  constructor
  · have hlen : ("elif".data ++ rest).length + 1 = (rest.length + 4) + 1 := by simp
    rw [pysplit, hlen, splitGo_succ]
    have hf : findLit ("elif".data ++ rest) = some ("elif".data) := rfl
    rw [hf]
    dsimp only
    have hdrop : ("elif".data ++ rest).drop ("elif".data).length = rest :=
      List.drop_left "elif".data rest
    rw [hdrop, pysplit]
    rw [splitGo_fuel (rest.length + 4) rest [] (rest.length + 1) (by omega) (by omega)]
    rfl
  · rfl

/-- C1 counterexample: the round-trip law fails as stated.  A 63-character
run of `'_'` (a single unknown segment) makes the encoder raise IndexError
inside `_form_ident`, so decoding its result cannot return the input — even
with a perfectly inverse compressor pair (here the identity). -/
theorem c1_roundtrip_counterexample :
    (_encode id (List.replicate 63 '_') 1900 >>= _decode Except.ok) ≠
      .ok (List.replicate 63 '_') := by
  have h0 : (_encode id (List.replicate 63 '_') 1900 >>= _decode Except.ok) =
      .error .indexError := rfl
  rw [h0]
  intro h
  exact Except.noConfusion h

/-- C1 (amended): for every compressor pair with `decomp` inverting `comp`,
every threshold, and every input text whose unknown split pieces are at most
62 characters long (the lengths the framer can actually emit), decoding the
encoded artifact returns the input exactly. -/
theorem c1_roundtrip (comp : Str → Str) (decomp : Str → Except PyErr Str)
    (hinv : ∀ s, decomp (comp s) = .ok s) (X : Str) (t : Nat)
    (hshort : ∀ x ∈ pysplit X, lookup x = none → x.length ≤ 62) :
    (_encode comp X t >>= _decode decomp) = .ok X := by
  obtain ⟨pay, hpay, hwalk⟩ := payload_walk X hshort
  have hdec0 : _decode decomp ('0' :: pay) = .ok X := by
    simp only [_decode]
    rw [if_neg (by decide : ¬ ('0' = '1'))]
    exact hwalk
  have hdec1 : _decode decomp ('1' :: comp pay) = .ok X := by
    simp only [_decode, if_true]
    rw [hinv pay, okBind]
    exact hwalk
  have henc : _encode comp X t = .ok ('0' :: pay) ∨
      _encode comp X t = .ok ('1' :: comp pay) := by
    simp only [_encode, hpay, okBind]
    by_cases h1 : pay.length > t
    · rw [if_pos h1]
      by_cases h2 : ('1' :: comp pay).length < pay.length + 1
      · rw [if_pos h2]
        exact Or.inr rfl
      · rw [if_neg h2]
        exact Or.inl rfl
    · rw [if_neg h1]
      exact Or.inl rfl
  rcases henc with h | h
  · rw [h, okBind]
    exact hdec0
  · rw [h, okBind]
    exact hdec1

/-- C1 witness: the amended round-trip at `"if xyz"` with the identity
compressor pair and the default threshold. -/
theorem c1_roundtrip_witness :
    (lookup "xyz".data = none → ("xyz".data).length ≤ 62) ∧
    (_encode id "if xyz".data 1900 >>= _decode Except.ok) = .ok "if xyz".data :=
  ⟨fun _ => by decide,
   c1_roundtrip id Except.ok (fun _ => rfl) "if xyz".data 1900 (by decide)⟩

/-- C4 counterexample: `_decode` does not treat a first character other than
`'0'` or `'1'` as an error — with the flag `'X'` and an empty body it
silently succeeds and returns the empty string. -/
theorem c4_flag_counterexample :
    _decode (fun _ => .error .decompressError) ['X'] = .ok [] ∧
    'X' ≠ '0' ∧ 'X' ≠ '1' := ⟨rfl, by decide, by decide⟩

/-- C4 (amended): every artifact produced by `_encode` begins with `'0'` or
`'1'`; `_decode` applies decompression exactly when the first character is
`'1'` and treats any other first character as the uncompressed flag,
walking the body directly with no flag validation. -/
theorem c4_flag_behaviour :
    (∀ (comp : Str → Str) (X : Str) (t : Nat) (r : Str),
        _encode comp X t = .ok r → ∃ body, r = '0' :: body ∨ r = '1' :: body) ∧
    (∀ (decomp : Str → Except PyErr Str) (flag : Char) (body : Str),
        flag ≠ '1' → _decode decomp (flag :: body) = walk body) := by
  constructor
  · intro comp X t r h
    cases hp : payload_of X with
    | error e =>
      rw [_encode, hp] at h
      exact Except.noConfusion h
    | ok p =>
      simp only [_encode, hp, okBind] at h
      by_cases h1 : p.length > t
      · rw [if_pos h1] at h
        by_cases h2 : ('1' :: comp p).length < p.length + 1
        · rw [if_pos h2] at h
          cases h
          exact ⟨comp p, Or.inr rfl⟩
        · rw [if_neg h2] at h
          cases h
          exact ⟨p, Or.inl rfl⟩
      · rw [if_neg h1] at h
        cases h
        exact ⟨p, Or.inl rfl⟩
  · intro decomp flag body hflag
    simp only [_decode]
    rw [if_neg hflag]
    rfl

/-- C4 witness: a concrete artifact head, and decoding under the flag `'7'`
walking the body raw. -/
theorem c4_flag_behaviour_witness :
    (∃ body, ('0' :: 'Q' :: []) = '0' :: body ∨ ('0' :: 'Q' :: []) = '1' :: body) ∧
    _decode Except.ok ('7' :: 'Q' :: []) = walk ('Q' :: []) :=
  ⟨c4_flag_behaviour.1 id "if".data 1900 ('0' :: 'Q' :: []) rfl,
   c4_flag_behaviour.2 Except.ok '7' ('Q' :: []) (by decide)⟩

/-- C5: the compression gate contract.  When the payload fits the threshold
the artifact is exactly `'0'` plus the payload; when it exceeds it, the
artifact is whichever of `'1' + comp payload` and `'0' + payload` is
shorter (ties go to the raw form, which has the same, minimal, length);
and every artifact is at most one character longer than the payload. -/
theorem c5_compression_gate (comp : Str → Str) (X : Str) (t : Nat) (p : Str)
    (hp : payload_of X = .ok p) :
    (p.length ≤ t → _encode comp X t = .ok ('0' :: p)) ∧
    (p.length > t →
      ∃ r, _encode comp X t = .ok r ∧ (r = '1' :: comp p ∨ r = '0' :: p) ∧
        r.length = min ('1' :: comp p).length ('0' :: p).length) ∧
    (∀ r, _encode comp X t = .ok r → r.length ≤ p.length + 1) := by
  refine ⟨?_, ?_, ?_⟩
  · intro hle
    simp only [_encode, hp, okBind]
    rw [if_neg (by omega)]
    rfl
  · intro hgt
    simp only [_encode, hp, okBind]
    rw [if_pos hgt]
    by_cases h2 : ('1' :: comp p).length < p.length + 1
    · rw [if_pos h2]
      refine ⟨'1' :: comp p, rfl, Or.inl rfl, ?_⟩
      simp only [List.length_cons] at h2 ⊢
      omega
    · rw [if_neg h2]
      refine ⟨'0' :: p, rfl, Or.inr rfl, ?_⟩
      simp only [List.length_cons] at h2 ⊢
      omega
  · intro r h
    simp only [_encode, hp, okBind] at h
    by_cases h1 : p.length > t
    · rw [if_pos h1] at h
      by_cases h2 : ('1' :: comp p).length < p.length + 1
      · rw [if_pos h2] at h
        cases h
        simp only [List.length_cons] at h2 ⊢
        omega
      · rw [if_neg h2] at h
        cases h
        simp
    · rw [if_neg h1] at h
      cases h
      simp

/-- C5 witness: the gate at the payload of `"if"` under the default
threshold. -/
theorem c5_compression_gate_witness :
    payload_of "if".data = .ok ('Q' :: []) ∧
    _encode id "if".data 1900 = .ok ('0' :: 'Q' :: []) :=
  ⟨rfl, (c5_compression_gate id "if".data 1900 ('Q' :: []) rfl).1 (by decide)⟩

end Pyzippy
